import Mathlib

/- Verification of the event pipeline of AnesthesiaCalendar.

The embedded code is the operational front-end script (src/assets/app.js,
version "2026-01-19 operational-no-ics-cleanup") together with the
stand-alone ICS module.  Calendar dates are the ISO "YYYY-MM-DD" strings
the code manipulates; JavaScript string comparison (UTF-16 code-unit
order) is embedded as codepoint-lexicographic order, which coincides with
it on these ASCII strings. -/

/-- Title field of a raw event: absent, a plain string, or a per-language
map with optional "en" and "pt" entries (the code only reads "en"). -/
inductive TitleVal where
  | missing : TitleVal
  | plain : String → TitleVal
  | localized : Option String → Option String → TitleVal
deriving DecidableEq, Repr

/-- Raw event record, restricted to the fields the embedded pipeline
reads.  Missing JSON fields are `none`. -/
structure Event where
  type : Option String := none
  series : Option String := none
  title : TitleVal := TitleVal.missing
  date : Option String := none
  start_date : Option String := none
  end_date : Option String := none
  priority : Option Int := none
deriving DecidableEq, Repr

/-- Codepoint-lexicographic order on character lists; embeds JavaScript
string `<=` for the ASCII date strings used by the pipeline. -/
def lexLe : List Char → List Char → Bool
  | [], _ => true
  | _ :: _, [] => false
  | a :: as, b :: bs =>
    if a.toNat = b.toNat then lexLe as bs
    else decide (a.toNat < b.toNat)

/-- JavaScript string comparison `a <= b`. -/
def strLe (a b : String) : Bool := lexLe a.data b.data

/-- JavaScript string comparison `a < b` (strict). -/
def strLt (a b : String) : Bool := !(strLe b a)

/-- JavaScript `String.prototype.toLowerCase` (ASCII range suffices for
the type tags and series codes compared by the code). -/
def lowerStr (s : String) : String := String.mk (s.data.map Char.toLower)

/-- Helper for substring containment: the first list starts with the
second one. -/
def listStartsWith : List Char → List Char → Bool
  | _, [] => true
  | [], _ :: _ => false
  | a :: as, b :: bs => a == b && listStartsWith as bs

/-- JavaScript `s.includes(pat)`: `pat` occurs contiguously in `s`. -/
def strContains (s pat : String) : Bool :=
  (List.range (s.data.length + 1)).any fun i => listStartsWith (s.data.drop i) pat.data

/-- The deadline-type token list `DEADLINE_TYPES` of src/assets/app.js. -/
def DEADLINE_TYPES : List String :=
  ["abstract_deadline", "pbl_deadline", "other_deadline",
   "registration_deadline", "hotel_deadline", "early_bird_deadline",
   "submission_deadline", "poster_deadline", "deadline"]

/-- The congress-type token list `CONGRESS_TYPES` of src/assets/app.js. -/
def CONGRESS_TYPES : List String :=
  ["congress", "meeting", "main_event", "annual_meeting"]

/-- JavaScript `a || b` on optional strings: the empty string is falsy
and falls through to `b`. -/
def jsOrStr (a : Option String) (b : Option String) : Option String :=
  match a with
  | some s => if s = "" then b else some s
  | none => b

/-- Function `getStart` of src/assets/app.js: `ev.date || ev.start_date || null`. -/
def getStart (ev : Event) : Option String :=
  jsOrStr ev.date (jsOrStr ev.start_date none)

/-- Function `getEnd` of src/assets/app.js:
`ev.end_date || ev.date || ev.start_date || null`. -/
def getEnd (ev : Event) : Option String :=
  jsOrStr ev.end_date (jsOrStr ev.date (jsOrStr ev.start_date none))

/-- JavaScript `String(ev.title?.en || ev.title)` as used by `isCongress`:
a plain string title passes through, a language map yields its "en" entry
(or the object-to-string form when that entry is missing or empty), and
an absent title stringifies to "undefined". -/
def titleProbe : TitleVal → String
  | TitleVal.missing => "undefined"
  | TitleVal.plain s => s
  | TitleVal.localized en _ =>
    match en with
    | some e => if e = "" then "[object Object]" else e
    | none => "[object Object]"

/-- Function `isDeadline` of src/assets/app.js: the lower-cased type tag
contains one of the deadline tokens. -/
def isDeadline (ev : Event) : Bool :=
  let type := lowerStr (ev.type.getD "")
  DEADLINE_TYPES.any fun t => strContains type t

/-- Function `isCongress` of src/assets/app.js: congress-type token in
the type tag, or a congress-brand marker in the series or the title. -/
def isCongress (ev : Event) : Bool :=
  let type := lowerStr (ev.type.getD "")
  let series := lowerStr (ev.series.getD "")
  let title := lowerStr (titleProbe ev.title)
  (CONGRESS_TYPES.any fun t => strContains type t) ||
    (strContains series "wca" || strContains series "wfsa") ||
    (strContains title "world congress" || strContains title "wca")

/-- The two output categories of the classifier. -/
inductive Category where
  | deadline : Category
  | congress : Category
deriving DecidableEq, Repr

/-- Per-event branch of the `upcoming.forEach` loop in `classifyEvents`
(src/assets/app.js): deadline check first, then congress check, else
the deadline fallback. -/
def classify (ev : Event) : Category :=
  if isDeadline ev then Category.deadline
  else if isCongress ev then Category.congress
  else Category.deadline

/-- Filter predicate of `classifyEvents` (src/assets/app.js):
`const s = getStart(ev); return s && s >= todayStr;`. -/
def upcomingB (todayStr : String) (ev : Event) : Bool :=
  match getStart ev with
  | some s => strLe todayStr s
  | none => false

/-- Splits a list of events into (deadlines, congresses) in input order,
mirroring the push-into-two-arrays loop of `classifyEvents`. -/
def splitEvents : List Event → List Event × List Event
  | [] => ([], [])
  | ev :: rest =>
    let p := splitEvents rest
    match classify ev with
    | Category.deadline => (ev :: p.1, p.2)
    | Category.congress => (p.1, ev :: p.2)

/-- Sort key of the comparator `sortFn` in src/assets/app.js:
`(getStart(a) || "")`. -/
def startKey (ev : Event) : String := (getStart ev).getD ""

/-- The comparator `sortFn` of src/assets/app.js orders by the start
string only (`localeCompare`, here codepoint order on ASCII dates). -/
def sortLe (a b : Event) : Bool := strLe (startKey a) (startKey b)

/-- Stable insertion step: the new element goes after every element that
compares less-or-equal, keeping input order among ties. -/
def insEvent (a : Event) : List Event → List Event
  | [] => [a]
  | b :: bs => if sortLe b a then b :: insEvent a bs else a :: b :: bs

/-- JavaScript `Array.prototype.sort(sortFn)` is a stable comparison
sort (ES2019); embedded as a stable insertion sort over `sortLe`. -/
def sortEvents (l : List Event) : List Event :=
  l.foldl (fun acc a => insEvent a acc) []

/-- Dedup key of `classifyEvents`: `(ev.series || "").toLowerCase()`. -/
def normKey (ev : Event) : String := lowerStr (ev.series.getD "")

/-- The congress dedup loop of `classifyEvents` (src/assets/app.js):
skip an event whose non-empty key was already seen; an empty key is
never recorded and never skipped. -/
def dedupeCongresses : List Event → List String → List Event
  | [], _ => []
  | ev :: rest, seen =>
    let key := normKey ev
    if key ≠ "" ∧ key ∈ seen then dedupeCongresses rest seen
    else if key ≠ "" then ev :: dedupeCongresses rest (key :: seen)
    else ev :: dedupeCongresses rest seen

/-- Function `classifyEvents` of src/assets/app.js, parameterized by the
`todayStr` value the code computes from the wall clock: filter to
upcoming by start date, split into the two categories, sort each, and
dedupe only the congress list. -/
def classifyEvents (events : List Event) (todayStr : String) : List Event × List Event :=
  (sortEvents (splitEvents (events.filter (upcomingB todayStr))).1,
   dedupeCongresses (sortEvents (splitEvents (events.filter (upcomingB todayStr))).2) [])

/-- One moment in time, described by the two civil calendar dates the
page can observe for it: the UTC date and the viewer-local date (they
differ near midnight for viewers away from UTC). -/
structure Instant where
  utcDate : String
  localDate : String
deriving DecidableEq, Repr

/-- The `todayStr` computation of `classifyEvents`:
`new Date().toISOString().slice(0, 10)` — `toISOString` always renders
the instant in UTC, so this is the UTC calendar date. -/
def todayStrOfInstant (i : Instant) : String := i.utcDate

/-- The classifier as actually invoked at a given moment. -/
def classifyEventsAt (i : Instant) (events : List Event) : List Event × List Event :=
  classifyEvents events (todayStrOfInstant i)

/-- Default priority per the data model: `priority` defaults to 0
(src/unnamed/part_001, `sortByStartPriority`). -/
def priorityOf (ev : Event) : Int := ev.priority.getD 0

/-- The ordering the specification claims for the output lists:
non-decreasing by start, and for equal starts higher priority first.
Written from the spec, to be compared with the code's `sortEvents`. -/
def specOrderedB : List Event → Bool
  | [] => true
  | [_] => true
  | a :: b :: rest =>
    (strLt (startKey a) (startKey b) ||
      (startKey a == startKey b && decide (priorityOf b ≤ priorityOf a))) &&
      specOrderedB (b :: rest)

/-- Calendar date as the ICS module manipulates it (a JavaScript `Date`
restricted to its year/month/day components). -/
structure Ymd where
  y : Nat
  m : Nat
  d : Nat
deriving DecidableEq, Repr

/-- Gregorian leap-year rule, as implemented by JavaScript `Date`. -/
def isLeapYear (y : Nat) : Bool :=
  (y % 4 == 0 && y % 100 != 0) || y % 400 == 0

/-- Number of days of a month under the Gregorian calendar. -/
def daysInMonth (y m : Nat) : Nat :=
  if m = 2 then (if isLeapYear y then 29 else 28)
  else if m = 4 ∨ m = 6 ∨ m = 9 ∨ m = 11 then 30
  else 31

/-- JavaScript `new Date(y, m, d + 1)` date normalization: one calendar
day later, rolling over month and year ends. -/
def addOneDay (dt : Ymd) : Ymd :=
  if dt.d + 1 ≤ daysInMonth dt.y dt.m then ⟨dt.y, dt.m, dt.d + 1⟩
  else if dt.m + 1 ≤ 12 then ⟨dt.y, dt.m + 1, 1⟩
  else ⟨dt.y + 1, 1, 1⟩

/-- Function `pad2` of the ICS module (src/unnamed/part_000). -/
def pad2 (n : Nat) : String :=
  if n < 10 then "0" ++ toString n else toString n

/-- Function `formatDateICSAllDay` of the ICS module: all-day stamps use
`YYYYMMDD`. -/
def formatDateICSAllDay (dt : Ymd) : String :=
  toString dt.y ++ pad2 dt.m ++ pad2 dt.d

/-- Digit-string to number, the defined fragment of JavaScript
`parseInt(x, 10)`; a non-digit input is Invalid (`none`). -/
def digitsToNatAux : List Char → Nat → Option Nat
  | [], acc => some acc
  | c :: cs, acc =>
    if c.isDigit then digitsToNatAux cs (acc * 10 + (c.toNat - 48)) else none

/-- Numeric parse of one dash-separated segment. -/
def digitsToNat : List Char → Option Nat
  | [] => none
  | c :: cs => digitsToNatAux (c :: cs) 0

/-- Split on the dash character, as `ymd.split("-")` does. -/
def splitDash : List Char → List (List Char)
  | [] => [[]]
  | c :: cs =>
    let r := splitDash cs
    if c.toNat = 45 then [] :: r
    else
      match r with
      | [] => [[c]]
      | g :: gs => (c :: g) :: gs

/-- Function `ymdToDateLocal` of the ICS module: `"YYYY-MM-DD"` parsed
segment-wise into a local-midnight date; a malformed string yields an
Invalid Date, modelled as `none`.  Only in-range dates are modelled. -/
def parseYmd (s : String) : Option Ymd :=
  match (splitDash s.data).map digitsToNat with
  | [some y, some m, some d] => some ⟨y, m, d⟩
  | _ => none

/-- JavaScript truthiness of an optional string field. -/
def truthyStr : Option String → Bool
  | some s => s != ""
  | none => false

/-- Date logic of `downloadICSForEvent` (src/unnamed/part_000): the
`DTSTART`/`DTEND` all-day stamps of the built invite.  A ranged congress
uses `start_date` and `end_date + 1 day` (exclusive end); any other
event uses `date` and `date + 1 day`; an unparseable date gives no
invite. -/
def downloadICSDates (ev : Event) : Option (String × String) :=
  let isRange := ev.type == some "congress" && truthyStr ev.start_date && truthyStr ev.end_date
  if isRange then
    match parseYmd (ev.start_date.getD ""), parseYmd (ev.end_date.getD "") with
    | some sd, some ed =>
      some (formatDateICSAllDay sd, formatDateICSAllDay (addOneDay ed))
    | _, _ => none
  else
    match ev.date with
    | some ds =>
      match parseYmd ds with
      | some dt => some (formatDateICSAllDay dt, formatDateICSAllDay (addOneDay dt))
      | none => none
    | none => none

/-- Observable page state after `main` (src/assets/app.js) finishes: the
two rendered lists and whether any error element was added to the page.
The HTML shell starts with both containers empty. -/
structure PageState where
  deadlines : List Event
  congresses : List Event
  errorShown : Bool
deriving DecidableEq, Repr

/-- Function `main` of src/assets/app.js: `Promise.all` of the i18n
fetch and the data fetch — if either rejects, control jumps to the
`catch` block, whose only statement is `console.error(err)`, so the page
keeps its initial empty state and no error element is created.  On
success the pipeline runs and both lists are rendered. -/
def mainPage {α : Type} (i18nRes : Except String α)
    (dataRes : Except String (List Event)) (todayStr : String) : PageState :=
  match i18nRes, dataRes with
  | Except.ok _, Except.ok events =>
    let p := classifyEvents events todayStr
    { deadlines := p.1, congresses := p.2, errorShown := false }
  | _, _ => { deadlines := [], congresses := [], errorShown := false }

/-- Lexicographic order is reflexive. -/
theorem lexLe_refl (l : List Char) : lexLe l l = true := by
  induction l with
  | nil => rfl
  | cons a as ih => simp [lexLe, ih]

/-- Lexicographic order is total. -/
theorem lexLe_total (a b : List Char) : lexLe a b = true ∨ lexLe b a = true := by
  induction a generalizing b with
  | nil => left; rfl
  | cons x xs ih =>
    cases b with
    | nil => right; rfl
    | cons y ys =>
      by_cases h : x.toNat = y.toNat
      · have h2 : y.toNat = x.toNat := h.symm
        rcases ih ys with hc | hc
        · left; simp [lexLe, h, hc]
        · right; simp [lexLe, h2, hc]
      · rcases Nat.lt_or_ge x.toNat y.toNat with hlt | hge
        · left; simp [lexLe, h, hlt]
        · have h2 : y.toNat ≠ x.toNat := fun e => h e.symm
          have hlt : y.toNat < x.toNat := by omega
          right; simp [lexLe, h2, hlt]

/-- Lexicographic order is transitive. -/
theorem lexLe_trans (a b c : List Char) (h1 : lexLe a b = true) (h2 : lexLe b c = true) :
    lexLe a c = true := by
  induction a generalizing b c with
  | nil => rfl
  | cons x xs ih =>
    cases b with
    | nil => simp [lexLe] at h1
    | cons y ys =>
      cases c with
      | nil => simp [lexLe] at h2
      | cons z zs =>
        by_cases hxy : x.toNat = y.toNat
        · by_cases hyz : y.toNat = z.toNat
          · have hxz : x.toNat = z.toNat := hxy.trans hyz
            simp only [lexLe, if_pos hxy] at h1
            simp only [lexLe, if_pos hyz] at h2
            simp only [lexLe, if_pos hxz]
            exact ih ys zs h1 h2
          · simp only [lexLe, if_neg hyz, decide_eq_true_eq] at h2
            have hxz : x.toNat < z.toNat := by omega
            have hne : x.toNat ≠ z.toNat := by omega
            simp [lexLe, hne, hxz]
        · simp only [lexLe, if_neg hxy, decide_eq_true_eq] at h1
          by_cases hyz : y.toNat = z.toNat
          · have hxz : x.toNat < z.toNat := by omega
            have hne : x.toNat ≠ z.toNat := by omega
            simp [lexLe, hne, hxz]
          · simp only [lexLe, if_neg hyz, decide_eq_true_eq] at h2
            have hxz : x.toNat < z.toNat := by omega
            have hne : x.toNat ≠ z.toNat := by omega
            simp [lexLe, hne, hxz]

/-- String order is reflexive. -/
theorem strLe_refl (s : String) : strLe s s = true := lexLe_refl s.data

/-- String order is total. -/
theorem strLe_total (a b : String) (h : strLe a b = false) : strLe b a = true := by
  rcases lexLe_total a.data b.data with hc | hc
  · rw [strLe] at h; rw [hc] at h; cases h
  · exact hc

/-- String order is transitive. -/
theorem strLe_trans (a b c : String) (h1 : strLe a b = true) (h2 : strLe b c = true) :
    strLe a c = true := lexLe_trans a.data b.data c.data h1 h2

/-- Sort comparator is reflexive. -/
theorem sortLe_refl (a : Event) : sortLe a a = true := strLe_refl _

/-- Sort comparator is total. -/
theorem sortLe_total (a b : Event) (h : sortLe a b = false) : sortLe b a = true :=
  strLe_total _ _ h

/-- Sort comparator is transitive. -/
theorem sortLe_trans (a b c : Event) (h1 : sortLe a b = true) (h2 : sortLe b c = true) :
    sortLe a c = true := strLe_trans _ _ _ h1 h2

/-- Membership through one stable-insertion step. -/
theorem mem_insEvent (x a : Event) (l : List Event) :
    x ∈ insEvent a l ↔ x = a ∨ x ∈ l := by
  induction l with
  | nil => simp [insEvent]
  | cons b bs ih =>
    by_cases h : sortLe b a
    · simp only [insEvent, if_pos h, List.mem_cons, ih]
      tauto
    · simp only [insEvent, if_neg h, List.mem_cons]

/-- One stable-insertion step permutes the element onto the list. -/
theorem insEvent_perm (a : Event) (l : List Event) :
    List.Perm (insEvent a l) (a :: l) := by
  induction l with
  | nil => exact List.Perm.refl _
  | cons b bs ih =>
    by_cases h : sortLe b a
    · simp only [insEvent, if_pos h]
      exact (ih.cons b).trans (List.Perm.swap a b bs)
    · simp only [insEvent, if_neg h]
      exact List.Perm.refl _

/-- The insertion-sort fold permutes its accumulator and input. -/
theorem foldl_insEvent_perm (l : List Event) :
    ∀ acc : List Event,
      List.Perm (List.foldl (fun acc a => insEvent a acc) acc l) (acc ++ l) := by
  induction l with
  | nil => intro acc; simp
  | cons a as ih =>
    intro acc
    have h1 := ih (insEvent a acc)
    have h2 : List.Perm (insEvent a acc ++ as) (acc ++ a :: as) :=
      ((insEvent_perm a acc).append_right as).trans List.perm_middle.symm
    exact h1.trans h2

/-- The embedded sort is a permutation: nothing is added or dropped. -/
theorem sortEvents_perm (l : List Event) : List.Perm (sortEvents l) l := by
  simpa using foldl_insEvent_perm l []

/-- Membership is preserved by the embedded sort. -/
theorem mem_sortEvents (l : List Event) (x : Event) :
    x ∈ sortEvents l ↔ x ∈ l := (sortEvents_perm l).mem_iff

/-- One stable-insertion step preserves sortedness. -/
theorem pairwise_insEvent (a : Event) (l : List Event)
    (h : l.Pairwise (fun x y => sortLe x y = true)) :
    (insEvent a l).Pairwise (fun x y => sortLe x y = true) := by
  induction l with
  | nil => simp [insEvent]
  | cons b bs ih =>
    rcases List.pairwise_cons.mp h with ⟨hb, hbs⟩
    by_cases hba : sortLe b a
    · simp only [insEvent, if_pos hba]
      refine List.pairwise_cons.mpr ⟨?_, ih hbs⟩
      intro x hx
      rcases (mem_insEvent x a bs).mp hx with rfl | hxbs
      · exact hba
      · exact hb x hxbs
    · simp only [insEvent, if_neg hba]
      have hba2 : sortLe b a = false := by
        cases hh : sortLe b a
        · rfl
        · exact absurd hh hba
      have hab : sortLe a b = true := sortLe_total b a hba2
      refine List.pairwise_cons.mpr ⟨?_, h⟩
      intro x hx
      rcases List.mem_cons.mp hx with rfl | hxbs
      · exact hab
      · exact sortLe_trans a b x hab (hb x hxbs)

/-- The insertion-sort fold preserves sortedness of the accumulator. -/
theorem foldl_insEvent_pairwise (l : List Event) :
    ∀ acc : List Event, acc.Pairwise (fun x y => sortLe x y = true) →
      (List.foldl (fun acc a => insEvent a acc) acc l).Pairwise
        (fun x y => sortLe x y = true) := by
  induction l with
  | nil => intro acc h; exact h
  | cons a as ih => intro acc h; exact ih _ (pairwise_insEvent a acc h)

/-- The embedded sort produces a list ordered by the comparator. -/
theorem sortEvents_pairwise (l : List Event) :
    (sortEvents l).Pairwise (fun x y => sortLe x y = true) :=
  foldl_insEvent_pairwise l [] (by simp)

/-- Membership in the deadline side of the classification split. -/
theorem mem_splitEvents_fst (x : Event) (l : List Event) :
    x ∈ (splitEvents l).1 ↔ x ∈ l ∧ classify x = Category.deadline := by
  induction l with
  | nil => simp [splitEvents]
  | cons ev rest ih =>
    cases hc : classify ev with
    | deadline =>
      simp only [splitEvents, hc, List.mem_cons, ih]
      constructor
      · rintro (rfl | ⟨hx, hcx⟩)
        · exact ⟨Or.inl rfl, hc⟩
        · exact ⟨Or.inr hx, hcx⟩
      · rintro ⟨rfl | hx, hcx⟩
        · exact Or.inl rfl
        · exact Or.inr ⟨hx, hcx⟩
    | congress =>
      simp only [splitEvents, hc, List.mem_cons, ih]
      constructor
      · rintro ⟨hx, hcx⟩
        exact ⟨Or.inr hx, hcx⟩
      · rintro ⟨rfl | hx, hcx⟩
        · rw [hc] at hcx; cases hcx
        · exact ⟨hx, hcx⟩

/-- Membership in the congress side of the classification split. -/
theorem mem_splitEvents_snd (x : Event) (l : List Event) :
    x ∈ (splitEvents l).2 ↔ x ∈ l ∧ classify x = Category.congress := by
  induction l with
  | nil => simp [splitEvents]
  | cons ev rest ih =>
    cases hc : classify ev with
    | congress =>
      simp only [splitEvents, hc, List.mem_cons, ih]
      constructor
      · rintro (rfl | ⟨hx, hcx⟩)
        · exact ⟨Or.inl rfl, hc⟩
        · exact ⟨Or.inr hx, hcx⟩
      · rintro ⟨rfl | hx, hcx⟩
        · exact Or.inl rfl
        · exact Or.inr ⟨hx, hcx⟩
    | deadline =>
      simp only [splitEvents, hc, List.mem_cons, ih]
      constructor
      · rintro ⟨hx, hcx⟩
        exact ⟨Or.inr hx, hcx⟩
      · rintro ⟨rfl | hx, hcx⟩
        · rw [hc] at hcx; cases hcx
        · exact ⟨hx, hcx⟩

/-- The dedup loop only drops elements, in order: its output is a
sublist of its input. -/
theorem dedupe_sublist (l : List Event) (seen : List String) :
    (dedupeCongresses l seen).Sublist l := by
  induction l generalizing seen with
  | nil => simp [dedupeCongresses]
  | cons ev rest ih =>
    simp only [dedupeCongresses]
    split_ifs with h1 h2
    · exact List.Sublist.cons ev (ih seen)
    · exact List.Sublist.cons₂ ev (ih (normKey ev :: seen))
    · exact List.Sublist.cons₂ ev (ih seen)

/-- An event whose non-empty key is already recorded as seen never
survives the dedup loop. -/
theorem dedupe_not_mem_of_seen (b : Event) (hk : normKey b ≠ "") :
    ∀ (l : List Event) (seen : List String),
      b ∈ dedupeCongresses l seen → normKey b ∈ seen → False := by
  intro l
  induction l with
  | nil =>
    intro seen hb _
    simp [dedupeCongresses] at hb
  | cons ev rest ih =>
    intro seen hb hseen
    simp only [dedupeCongresses] at hb
    split_ifs at hb with h1 h2
    · exact ih seen hb hseen
    · rcases List.mem_cons.mp hb with rfl | hb2
      · exact h1 ⟨hk, hseen⟩
      · exact ih (normKey ev :: seen) hb2 (List.mem_cons_of_mem _ hseen)
    · rcases List.mem_cons.mp hb with rfl | hb2
      · exact hk (by simpa using h2)
      · exact ih seen hb2 hseen

/-- On a list sorted by the comparator, every dedup survivor with a
non-empty key starts no later than any same-key element of the list. -/
theorem dedupe_min (b : Event) (hk : normKey b ≠ "") :
    ∀ (l : List Event) (seen : List String),
      l.Pairwise (fun x y => sortLe x y = true) →
      b ∈ dedupeCongresses l seen →
      ∀ a ∈ l, normKey a = normKey b → sortLe b a = true := by
  intro l
  induction l with
  | nil =>
    intro seen _ hb
    simp [dedupeCongresses] at hb
  | cons ev rest ih =>
    intro seen hp hb a ha hka
    rcases List.pairwise_cons.mp hp with ⟨hev, hprest⟩
    simp only [dedupeCongresses] at hb
    split_ifs at hb with h1 h2
    · rcases List.mem_cons.mp ha with rfl | ha2
      · have hmem : normKey b ∈ seen := by rw [← hka]; exact h1.2
        exact (dedupe_not_mem_of_seen b hk rest seen hb hmem).elim
      · exact ih seen hprest hb a ha2 hka
    · rcases List.mem_cons.mp hb with rfl | hb2
      · rcases List.mem_cons.mp ha with rfl | ha2
        · exact sortLe_refl a
        · exact hev a ha2
      · rcases List.mem_cons.mp ha with rfl | ha2
        · have hmem : normKey b ∈ normKey a :: seen := by
            rw [← hka]; exact List.mem_cons_self _ _
          exact (dedupe_not_mem_of_seen b hk rest _ hb2 hmem).elim
        · exact ih (normKey ev :: seen) hprest hb2 a ha2 hka
    · have hke : normKey ev = "" := by simpa using h2
      rcases List.mem_cons.mp hb with rfl | hb2
      · exact (hk hke).elim
      · rcases List.mem_cons.mp ha with rfl | ha2
        · have : normKey b = "" := by rw [← hka]; exact hke
          exact (hk this).elim
        · exact ih seen hprest hb2 a ha2 hka

/-- Every element whose key is not yet seen is represented in the dedup
output by some survivor with the same key. -/
theorem dedupe_exists (a : Event) :
    ∀ (l : List Event) (seen : List String), a ∈ l → normKey a ∉ seen →
      ∃ b ∈ dedupeCongresses l seen, normKey b = normKey a := by
  intro l
  induction l with
  | nil =>
    intro seen ha _
    simp at ha
  | cons ev rest ih =>
    intro seen ha hns
    simp only [dedupeCongresses]
    split_ifs with h1 h2
    · rcases List.mem_cons.mp ha with rfl | ha2
      · exact (hns h1.2).elim
      · exact ih seen ha2 hns
    · by_cases hkey : normKey ev = normKey a
      · exact ⟨ev, List.mem_cons_self _ _, hkey⟩
      · rcases List.mem_cons.mp ha with rfl | ha2
        · exact (hkey rfl).elim
        · have hns2 : normKey a ∉ normKey ev :: seen := by
            intro hmem
            rcases List.mem_cons.mp hmem with he | hs
            · exact hkey he.symm
            · exact hns hs
          rcases ih (normKey ev :: seen) ha2 hns2 with ⟨b, hb, hkb⟩
          exact ⟨b, List.mem_cons_of_mem _ hb, hkb⟩
    · rcases List.mem_cons.mp ha with rfl | ha2
      · exact ⟨a, List.mem_cons_self _ _, rfl⟩
      · rcases ih seen ha2 hns with ⟨b, hb, hkb⟩
        exact ⟨b, List.mem_cons_of_mem _ hb, hkb⟩

/-- An event with an empty key is always kept by the dedup loop. -/
theorem dedupe_keeps_empty (a : Event) (hk : normKey a = "") :
    ∀ (l : List Event) (seen : List String), a ∈ l → a ∈ dedupeCongresses l seen := by
  intro l
  induction l with
  | nil =>
    intro seen ha
    simp at ha
  | cons ev rest ih =>
    intro seen ha
    simp only [dedupeCongresses]
    split_ifs with h1 h2
    · rcases List.mem_cons.mp ha with rfl | ha2
      · exact (h1.1 hk).elim
      · exact ih seen ha2
    · rcases List.mem_cons.mp ha with rfl | ha2
      · exact (h2 hk).elim
      · exact List.mem_cons_of_mem _ (ih _ ha2)
    · rcases List.mem_cons.mp ha with rfl | ha2
      · exact List.mem_cons_self _ _
      · exact List.mem_cons_of_mem _ (ih seen ha2)

/-- Unfolded form of the upcoming filter predicate. -/
theorem upcomingB_iff (t : String) (ev : Event) :
    upcomingB t ev = true ↔ ∃ s, getStart ev = some s ∧ strLe t s = true := by
  unfold upcomingB
  cases h : getStart ev <;> simp

/-- Membership in the output deadline list, characterized. -/
theorem mem_deadlines_iff (evs : List Event) (t : String) (ev : Event) :
    ev ∈ (classifyEvents evs t).1 ↔
      ev ∈ evs ∧ upcomingB t ev = true ∧ classify ev = Category.deadline := by
  have h0 : (classifyEvents evs t).1
      = sortEvents (splitEvents (evs.filter (upcomingB t))).1 := rfl
  rw [h0, mem_sortEvents, mem_splitEvents_fst, List.mem_filter]
  tauto

/-- Every member of the output congress list is an upcoming
congress-classified input event. -/
theorem mem_congresses_sub (evs : List Event) (t : String) (ev : Event)
    (h : ev ∈ (classifyEvents evs t).2) :
    ev ∈ evs ∧ upcomingB t ev = true ∧ classify ev = Category.congress := by
  have h2 : ev ∈ sortEvents (splitEvents (evs.filter (upcomingB t))).2 :=
    (dedupe_sublist _ _).subset h
  rw [mem_sortEvents, mem_splitEvents_snd, List.mem_filter] at h2
  tauto

/-- Concrete ongoing congress: started May 1, ends May 5, viewed on May 5. -/
def c1Event : Event :=
  { type := some "congress", series := some "ASA",
    start_date := some "2026-05-01", end_date := some "2026-05-05" }

/-- Claim C1 is false on the code: a congress-category event on the last
day of its range (`effective_end` equals today) does not appear in the
Congress output, because `classifyEvents` filters every event by
`getStart(ev) >= todayStr` and never consults `getEnd`. -/
theorem c1_counterexample :
    isCongress c1Event = true ∧ isDeadline c1Event = false ∧
    getEnd c1Event = some "2026-05-05" ∧
    strLe "2026-05-05" "2026-05-05" = true ∧
    classifyEvents [c1Event] "2026-05-05" = ([], []) := by decide

/-- Claim C1 (amended): the Temporal Filter retains a congress-category
event only if `effective_start >= today`; every member of the Congress
output is congress-classified and has a start date at or after today,
regardless of its `effective_end`. -/
theorem c1_amended (evs : List Event) (t : String) (ev : Event)
    (h : ev ∈ (classifyEvents evs t).2) :
    classify ev = Category.congress ∧
    ∃ s, getStart ev = some s ∧ strLe t s = true := by
  have h3 := mem_congresses_sub evs t ev h
  exact ⟨h3.2.2, (upcomingB_iff t ev).mp h3.2.1⟩

/-- Concrete future congress used to witness the amended C1. -/
def c1WitnessEvent : Event :=
  { type := some "congress", series := some "ASA",
    start_date := some "2026-07-01", end_date := some "2026-07-05" }

/-- Witness for the amended C1 at a concrete input. -/
theorem c1_amended_witness :
    c1WitnessEvent ∈ (classifyEvents [c1WitnessEvent] "2026-05-05").2 ∧
    (classify c1WitnessEvent = Category.congress ∧
      ∃ s, getStart c1WitnessEvent = some s ∧ strLe "2026-05-05" s = true) :=
  ⟨by decide, c1_amended [c1WitnessEvent] "2026-05-05" c1WitnessEvent (by decide)⟩

/-- Concrete moment: 02:00 UTC on May 10, which is still May 9 for a
viewer west of UTC. -/
def c2Instant : Instant := { utcDate := "2026-05-10", localDate := "2026-05-09" }

/-- Concrete deadline falling on that viewer-local today. -/
def c2Event : Event :=
  { type := some "registration_deadline", date := some "2026-05-09" }

/-- Claim C2 is false on the code: `classifyEvents` computes today as
`new Date().toISOString().slice(0, 10)`, the UTC calendar date, not the
viewer-local one.  At the concrete moment below the two dates differ,
and an event whose start equals the viewer-local today (so the local
civil-calendar predicate retains it) is excluded from both outputs. -/
theorem c2_counterexample :
    todayStrOfInstant c2Instant ≠ c2Instant.localDate ∧
    getStart c2Event = some c2Instant.localDate ∧
    strLe c2Instant.localDate c2Instant.localDate = true ∧
    classifyEventsAt c2Instant [c2Event] = ([], []) := by decide

/-- Claim C2 (amended): the today value used by the upcoming predicate
is the UTC calendar date of the current moment, and every event retained
in either output list has `effective_start >=` that UTC date. -/
theorem c2_amended (i : Instant) (evs : List Event) (ev : Event)
    (h : ev ∈ (classifyEventsAt i evs).1 ∨ ev ∈ (classifyEventsAt i evs).2) :
    todayStrOfInstant i = i.utcDate ∧
    ∃ s, getStart ev = some s ∧ strLe i.utcDate s = true := by
  refine ⟨rfl, ?_⟩
  rcases h with h | h
  · have h2 : ev ∈ (classifyEvents evs (todayStrOfInstant i)).1 := h
    exact (upcomingB_iff _ ev).mp ((mem_deadlines_iff evs _ ev).mp h2).2.1
  · have h2 : ev ∈ (classifyEvents evs (todayStrOfInstant i)).2 := h
    exact (upcomingB_iff _ ev).mp (mem_congresses_sub evs _ ev h2).2.1

/-- Concrete moment with agreeing UTC and local dates. -/
def c2WitnessInstant : Instant := { utcDate := "2026-05-10", localDate := "2026-05-10" }

/-- Concrete future deadline used to witness the amended C2. -/
def c2WitnessEvent : Event := { type := some "deadline", date := some "2026-06-01" }

/-- Witness for the amended C2 at a concrete input. -/
theorem c2_amended_witness :
    (c2WitnessEvent ∈ (classifyEventsAt c2WitnessInstant [c2WitnessEvent]).1 ∨
      c2WitnessEvent ∈ (classifyEventsAt c2WitnessInstant [c2WitnessEvent]).2) ∧
    (todayStrOfInstant c2WitnessInstant = c2WitnessInstant.utcDate ∧
      ∃ s, getStart c2WitnessEvent = some s ∧
        strLe c2WitnessInstant.utcDate s = true) :=
  ⟨Or.inl (by decide),
   c2_amended c2WitnessInstant [c2WitnessEvent] c2WitnessEvent (Or.inl (by decide))⟩

/-- Claim C3: the classifier checks deadline tokens before any congress
rule, so an event whose type tag contains a deadline token is classified
Deadline and never reaches the Congress output, even when it also
satisfies a congress heuristic. -/
theorem c3_deadline_precedence (ev : Event) (evs : List Event) (t : String)
    (hd : isDeadline ev = true) :
    classify ev = Category.deadline ∧ ev ∉ (classifyEvents evs t).2 := by
  have hcl : classify ev = Category.deadline := by simp [classify, hd]
  refine ⟨hcl, ?_⟩
  intro hmem
  have h3 := mem_congresses_sub evs t ev hmem
  rw [hcl] at h3
  exact absurd h3.2.2 (by decide)

/-- Concrete WCA abstract deadline: deadline token plus congress-brand
series. -/
def c3Event : Event :=
  { type := some "abstract_deadline", series := some "WCA",
    date := some "2026-03-01" }

/-- Witness for C3 at the concrete event the claim names. -/
theorem c3_witness :
    isDeadline c3Event = true ∧ isCongress c3Event = true ∧
    (classify c3Event = Category.deadline ∧
      c3Event ∉ (classifyEvents [c3Event] "2026-01-01").2) :=
  ⟨by decide, by decide,
   c3_deadline_precedence c3Event [c3Event] "2026-01-01" (by decide)⟩

/-- Claim C4: among two upcoming congress events of the same non-empty
normalized series with starts d1 earlier than d2 (and no other upcoming
congress event of that series), only the d1 event survives the Congress
dedup; and the Deadline output is merely a reordering of the upcoming
deadline-classified events (no dedup is applied to it). -/
theorem c4_dedupe (t : String) (evs : List Event) (ev1 ev2 : Event) (s1 s2 k : String)
    (h1 : ev1 ∈ evs) (h2 : ev2 ∈ evs)
    (hup1 : upcomingB t ev1 = true) (hup2 : upcomingB t ev2 = true)
    (hc1 : classify ev1 = Category.congress) (hc2 : classify ev2 = Category.congress)
    (hs1 : getStart ev1 = some s1) (hs2 : getStart ev2 = some s2)
    (hk1 : normKey ev1 = k) (hk2 : normKey ev2 = k) (hk : k ≠ "")
    (hlt : strLt s1 s2 = true)
    (honly : ∀ ev, ev ∈ evs → upcomingB t ev = true → classify ev = Category.congress →
      normKey ev = k → ev = ev1 ∨ ev = ev2) :
    ev1 ∈ (classifyEvents evs t).2 ∧ ev2 ∉ (classifyEvents evs t).2 ∧
    List.Perm (classifyEvents evs t).1 (splitEvents (evs.filter (upcomingB t))).1 := by
  have hlt2 : strLe s2 s1 = false := by
    cases hh : strLe s2 s1
    · rfl
    · rw [strLt, hh] at hlt
      simp at hlt
  have hm1 : ev1 ∈ sortEvents (splitEvents (evs.filter (upcomingB t))).2 := by
    rw [mem_sortEvents, mem_splitEvents_snd, List.mem_filter]
    exact ⟨⟨h1, hup1⟩, hc1⟩
  have hm2 : ev2 ∈ sortEvents (splitEvents (evs.filter (upcomingB t))).2 := by
    rw [mem_sortEvents, mem_splitEvents_snd, List.mem_filter]
    exact ⟨⟨h2, hup2⟩, hc2⟩
  have hpair := sortEvents_pairwise (splitEvents (evs.filter (upcomingB t))).2
  have hk2ne : normKey ev2 ≠ "" := by rw [hk2]; exact hk
  have hnot2 : ev2 ∉ (classifyEvents evs t).2 := by
    intro hmem
    have hmem2 : ev2 ∈ dedupeCongresses
        (sortEvents (splitEvents (evs.filter (upcomingB t))).2) [] := hmem
    have hmin := dedupe_min ev2 hk2ne _ [] hpair hmem2 ev1 hm1 (by rw [hk1, hk2])
    have e1 : startKey ev1 = s1 := by simp [startKey, hs1]
    have e2 : startKey ev2 = s2 := by simp [startKey, hs2]
    rw [sortLe, e1, e2] at hmin
    rw [hmin] at hlt2
    cases hlt2
  have hex := dedupe_exists ev1 (sortEvents (splitEvents (evs.filter (upcomingB t))).2)
    [] hm1 (by simp)
  rcases hex with ⟨b, hbmem, hkb⟩
  have hbout : b ∈ (classifyEvents evs t).2 := hbmem
  have hbprops := mem_congresses_sub evs t b hbout
  have hbk : normKey b = k := by rw [hkb, hk1]
  rcases honly b hbprops.1 hbprops.2.1 hbprops.2.2 hbk with rfl | rfl
  · exact ⟨hbout, hnot2, sortEvents_perm _⟩
  · exact (hnot2 hbout).elim

/-- Concrete ASA edition A of the specification's dedup scenario. -/
def c4Ev1 : Event :=
  { type := some "congress", series := some "ASA",
    start_date := some "2026-10-01", end_date := some "2026-10-05" }

/-- Concrete ASA edition B of the specification's dedup scenario. -/
def c4Ev2 : Event :=
  { type := some "congress", series := some "ASA",
    start_date := some "2027-10-01", end_date := some "2027-10-05" }

/-- Witness for C4 on the specification's two-edition ASA scenario. -/
theorem c4_witness :
    (upcomingB "2026-01-01" c4Ev1 = true ∧ upcomingB "2026-01-01" c4Ev2 = true ∧
      classify c4Ev1 = Category.congress ∧ classify c4Ev2 = Category.congress ∧
      normKey c4Ev1 = "asa" ∧ normKey c4Ev2 = "asa" ∧
      strLt "2026-10-01" "2027-10-01" = true) ∧
    (c4Ev1 ∈ (classifyEvents [c4Ev1, c4Ev2] "2026-01-01").2 ∧
      c4Ev2 ∉ (classifyEvents [c4Ev1, c4Ev2] "2026-01-01").2 ∧
      List.Perm (classifyEvents [c4Ev1, c4Ev2] "2026-01-01").1
        (splitEvents ([c4Ev1, c4Ev2].filter (upcomingB "2026-01-01"))).1) :=
  ⟨by decide,
   c4_dedupe "2026-01-01" [c4Ev1, c4Ev2] c4Ev1 c4Ev2 "2026-10-01" "2027-10-01" "asa"
     (by decide) (by decide) (by decide) (by decide) (by decide) (by decide)
     (by decide) (by decide) (by decide) (by decide) (by decide) (by decide)
     (by decide)⟩

/-- Claim C5: a congress event whose series is empty or missing survives
deduplication unconditionally — any such event in the sorted Congress
list is also in the deduplicated Congress output. -/
theorem c5_empty_series (evs : List Event) (t : String) (ev : Event)
    (hk : ev.series = none ∨ ev.series = some "")
    (h : ev ∈ sortEvents (splitEvents (evs.filter (upcomingB t))).2) :
    ev ∈ (classifyEvents evs t).2 := by
  have hnk : normKey ev = "" := by
    unfold normKey
    rcases hk with hk | hk <;> rw [hk] <;> decide
  exact dedupe_keeps_empty ev hnk _ [] h

/-- Concrete series-less congress (first of two). -/
def c5EvA : Event :=
  { type := some "congress", start_date := some "2026-09-01",
    end_date := some "2026-09-03" }

/-- Concrete series-less congress (second of two). -/
def c5EvB : Event :=
  { type := some "congress", start_date := some "2026-11-01",
    end_date := some "2026-11-03" }

/-- Witness for C5 at a concrete input (two series-less congresses,
both kept). -/
theorem c5_witness :
    ((c5EvA.series = none ∨ c5EvA.series = some "") ∧
      c5EvA ∈ sortEvents (splitEvents ([c5EvA, c5EvB].filter (upcomingB "2026-01-01"))).2) ∧
    c5EvA ∈ (classifyEvents [c5EvA, c5EvB] "2026-01-01").2 :=
  ⟨⟨Or.inl rfl, by decide⟩,
   c5_empty_series [c5EvA, c5EvB] "2026-01-01" c5EvA (Or.inl rfl) (by decide)⟩

/-- Concrete equal-start deadline with the lower priority, listed first. -/
def c6EvA : Event :=
  { type := some "other_deadline", date := some "2026-06-01", priority := some 0 }

/-- Concrete equal-start deadline with the higher priority, listed second. -/
def c6EvB : Event :=
  { type := some "other_deadline", date := some "2026-06-01", priority := some 5 }

/-- Claim C6 is false on the code: the operational comparator `sortFn`
compares only the start strings, so two equal-start events keep their
input order (stable sort) even when the later one has higher priority;
the output below violates the claimed priority-descending tie-break. -/
theorem c6_counterexample :
    startKey c6EvA = startKey c6EvB ∧ priorityOf c6EvA < priorityOf c6EvB ∧
    (classifyEvents [c6EvA, c6EvB] "2026-01-01").1 = [c6EvA, c6EvB] ∧
    specOrderedB (classifyEvents [c6EvA, c6EvB] "2026-01-01").1 = false := by decide

/-- Claim C6 (amended): both output lists are non-decreasing by
`effective_start` (lexicographic compare of the start strings); no
priority tie-break is applied, equal-start events keep input order. -/
theorem c6_amended (evs : List Event) (t : String) :
    ((classifyEvents evs t).1).Pairwise
      (fun a b => strLe (startKey a) (startKey b) = true) ∧
    ((classifyEvents evs t).2).Pairwise
      (fun a b => strLe (startKey a) (startKey b) = true) := by
  constructor
  · exact sortEvents_pairwise _
  · exact (sortEvents_pairwise _).sublist (dedupe_sublist _ _)

/-- Claim C7: an event with neither a single date nor a start date is
silently excluded from both output lists (the pipeline is a total
function; no error value or placeholder entry exists). -/
theorem c7_no_usable_date (evs : List Event) (t : String) (ev : Event)
    (h1 : ev.date = none) (h2 : ev.start_date = none) :
    ev ∉ (classifyEvents evs t).1 ∧ ev ∉ (classifyEvents evs t).2 := by
  have hs : getStart ev = none := by simp [getStart, jsOrStr, h1, h2]
  have hup : upcomingB t ev = false := by simp [upcomingB, hs]
  constructor
  · intro hmem
    have h3 := (mem_deadlines_iff evs t ev).mp hmem
    rw [hup] at h3
    simp at h3
  · intro hmem
    have h3 := mem_congresses_sub evs t ev hmem
    rw [hup] at h3
    simp at h3

/-- Concrete event with an end date but no single date and no start
date. -/
def c7Event : Event :=
  { type := some "congress", series := some "WCA", end_date := some "2026-03-05" }

/-- Witness for C7 at a concrete input. -/
theorem c7_witness :
    (c7Event.date = none ∧ c7Event.start_date = none) ∧
    (c7Event ∉ (classifyEvents [c7Event] "2026-01-01").1 ∧
      c7Event ∉ (classifyEvents [c7Event] "2026-01-01").2) :=
  ⟨⟨rfl, rfl⟩, c7_no_usable_date [c7Event] "2026-01-01" c7Event rfl rfl⟩

/-- Claim C8: an event matching no deadline token, no congress token and
no series/title congress-brand heuristic falls back to Deadline, and (if
upcoming) lands in the Deadline output list. -/
theorem c8_fallback (ev : Event) (evs : List Event) (t : String)
    (hd : ∀ tok ∈ DEADLINE_TYPES, strContains (lowerStr (ev.type.getD "")) tok = false)
    (hc : ∀ tok ∈ CONGRESS_TYPES, strContains (lowerStr (ev.type.getD "")) tok = false)
    (hser1 : strContains (lowerStr (ev.series.getD "")) "wca" = false)
    (hser2 : strContains (lowerStr (ev.series.getD "")) "wfsa" = false)
    (htit1 : strContains (lowerStr (titleProbe ev.title)) "world congress" = false)
    (htit2 : strContains (lowerStr (titleProbe ev.title)) "wca" = false)
    (hmem : ev ∈ evs) (hup : upcomingB t ev = true) :
    classify ev = Category.deadline ∧ ev ∈ (classifyEvents evs t).1 := by
  have hdl : isDeadline ev = false := by
    cases hval : isDeadline ev
    · rfl
    · exfalso
      simp only [isDeadline] at hval
      rcases List.any_eq_true.mp hval with ⟨tok, htok, hp⟩
      rw [hd tok htok] at hp
      cases hp
  have hcg : isCongress ev = false := by
    cases hval : isCongress ev
    · rfl
    · exfalso
      simp only [isCongress] at hval
      rw [hser1, hser2, htit1, htit2] at hval
      simp only [Bool.or_false] at hval
      rcases List.any_eq_true.mp hval with ⟨tok, htok, hp⟩
      rw [hc tok htok] at hp
      cases hp
  have hcl : classify ev = Category.deadline := by simp [classify, hdl, hcg]
  exact ⟨hcl, (mem_deadlines_iff evs t ev).mpr ⟨hmem, hup, hcl⟩⟩

/-- Concrete unclassifiable event: type "expo", ordinary series and
title. -/
def c8Event : Event :=
  { type := some "expo", series := some "ASA",
    title := TitleVal.plain "ASA Expo 2026", date := some "2026-08-15" }

/-- Witness for C8 at a concrete input. -/
theorem c8_witness :
    ((∀ tok ∈ DEADLINE_TYPES,
        strContains (lowerStr (c8Event.type.getD "")) tok = false) ∧
      (∀ tok ∈ CONGRESS_TYPES,
        strContains (lowerStr (c8Event.type.getD "")) tok = false) ∧
      strContains (lowerStr (c8Event.series.getD "")) "wca" = false ∧
      strContains (lowerStr (titleProbe c8Event.title)) "world congress" = false) ∧
    (classify c8Event = Category.deadline ∧
      c8Event ∈ (classifyEvents [c8Event] "2026-01-01").1) :=
  ⟨by decide,
   c8_fallback c8Event [c8Event] "2026-01-01" (by decide) (by decide) (by decide)
     (by decide) (by decide) (by decide) (by decide) (by decide)⟩

/-- Concrete single-date event of the claimed invite round trip. -/
def c9Single : Event :=
  { type := some "abstract_deadline", date := some "2026-05-10" }

/-- Concrete ranged event of the claimed invite round trip. -/
def c9Ranged : Event :=
  { type := some "congress", start_date := some "2026-05-10",
    end_date := some "2026-05-12" }

/-- Claim C9: the calendar-invite builder emits an exclusive all-day end
one day after the inclusive end — start 20260510 and end 20260511 for
the single-date event, start 20260510 and end 20260513 for the ranged
event. -/
theorem c9_invite_dates :
    downloadICSDates c9Single = some ("20260510", "20260511") ∧
    downloadICSDates c9Ranged = some ("20260510", "20260513") := by decide

/-- Claim C10 is false in its surfacing half: when a fetch fails, `main`
reaches a catch block whose only statement is `console.error`, so the
page shows no visible error element (`errorShown` stays false) even
though no partial pipeline run occurs. -/
theorem c10_counterexample :
    mainPage (Except.error "Failed to fetch ./data/i18n.json: 500" : Except String Unit)
      (Except.ok ([] : List Event)) "2026-01-01"
      = { deadlines := [], congresses := [], errorShown := false } := rfl

/-- Claim C10 (amended): if either retrieval fails, no partial pipeline
run occurs — both lists stay empty — but the failure is only logged to
the console; the page is left in its initial state with no visible error
element. -/
theorem c10_amended {α : Type} (i18nRes : Except String α)
    (dataRes : Except String (List Event)) (t : String)
    (h : i18nRes.isOk = false ∨ dataRes.isOk = false) :
    mainPage i18nRes dataRes t
      = { deadlines := [], congresses := [], errorShown := false } := by
  cases i18nRes with
  | error e => rfl
  | ok v =>
    cases dataRes with
    | error e => rfl
    | ok d =>
      rcases h with h | h <;> simp [Except.isOk, Except.toBool] at h

/-- Witness for the amended C10 at a concrete failing fetch. -/
theorem c10_amended_witness :
    ((Except.error "Failed to fetch ./data/events.json: 404" : Except String Unit).isOk = false ∨
      (Except.ok ([] : List Event) : Except String (List Event)).isOk = false) ∧
    mainPage (Except.error "Failed to fetch ./data/events.json: 404" : Except String Unit)
      (Except.ok ([] : List Event)) "2026-01-01"
      = { deadlines := [], congresses := [], errorShown := false } :=
  ⟨Or.inl rfl, c10_amended _ _ _ (Or.inl rfl)⟩
